import Mathlib

/-!
Verification of the concurrent collection/aggregation core of the
`prometheus_ec2mon_exporter` program (`ec2monitor_exporter.py`).

The embedding below is a shallow model of the source file:

* Python dicts are association lists with distinct keys (`dlookup`,
  `dictInsert` give the lookup/assignment semantics; `keysNodup` is the
  distinct-keys invariant every real dict satisfies).
* A compiled filter (`Matcher`) is the exact pattern string the source hands
  to `re.compile` (`".*"`, `"^" + value + "$"` or
  `"^(" + "|".join(value) + ")$"`), and `reMatch` interprets it with Python
  regex semantics (`parseRegex`/`runRe`) for the metacharacter fragment
  `| ( ) * . ^ $`, including the prefix-match semantics of `re.match` and
  the fact that `$` also matches just before a single trailing newline.
* `Queue.Queue` with a single producer and single consumer is a FIFO list;
  `getNowait`/`drainAll` model `get_nowait` and the draining generator
  `Ec2Conn.get`.
* The worker thread body `Ec2Conn.run` is modelled for one uncancelled
  fetch cycle by `pollCycle` (cancellation, sleeping and the network calls
  are outside the claims considered here).
* `GaugeMetricFamily` keeps the label-name list and the samples appended by
  `add_metric`.  `Ec2Collector.collect` is `collect`, processing one fact at
  a time with `collectStep`; the `frozenset(sorted(tags.items()))` grouping
  key is `canonKey` (for dicts with distinct keys the sorted item list is a
  canonical representative of that frozenset).
* `Ec2Collector.__init__` is `collectorInit`; it walks the configuration in
  iteration order, starting workers as they are created, and stops at the
  first raised error (`ExporterError` or a Python `KeyError` from a missing
  dict field).  Python 2 string ordering and `str.lower` are modelled on the
  character lists (`strLe`, `lowerStr`), which agree with code-point
  comparison and ASCII lowering.
-/

namespace Ec2Exporter

/-! ### Python dict model -/

/-- `d[k]` as a total lookup: the value at the first matching key. -/
def dlookup {κ α : Type} [DecidableEq κ] (k : κ) : List (κ × α) → Option α
  | [] => none
  | p :: r => if p.1 = k then some p.2 else dlookup k r

/-- `d[k] = v`: replace the value in place if the key is present, else append. -/
def dictInsert {κ α : Type} [DecidableEq κ] (k : κ) (v : α) : List (κ × α) → List (κ × α)
  | [] => [(k, v)]
  | p :: r => if p.1 = k then (k, v) :: r else p :: dictInsert k v r

/-- The distinct-keys invariant of a Python dict rendered as a list of items. -/
abbrev keysNodup {κ α : Type} (d : List (κ × α)) : Prop :=
  d.Pairwise (fun p q => p.1 ≠ q.1)

/-! ### Python string ordering and lowering -/

/-- Python string `<=` (code-point lexicographic), via the character lists. -/
def strLe (a b : String) : Prop := a.data ≤ b.data

/-- Python string `<` (code-point lexicographic), via the character lists. -/
def strLt (a b : String) : Prop := a.data < b.data

instance : DecidableRel strLe := fun a b => inferInstanceAs (Decidable (a.data ≤ b.data))

instance : DecidableRel strLt := fun a b => inferInstanceAs (Decidable (a.data < b.data))

instance : IsTotal String strLe := ⟨fun a b => le_total a.data b.data⟩

instance : IsTrans String strLe := ⟨fun _ _ _ h1 h2 => le_trans h1 h2⟩

/-- ASCII lowering of one character, as Python 2 `str.lower` does per byte. -/
def lowerChar (c : Char) : Char :=
  if 65 ≤ c.toNat ∧ c.toNat ≤ 90 then Char.ofNat (c.toNat + 32) else c

/-- Python 2 `str.lower()` on byte strings: ASCII lowering of every character. -/
def lowerStr (s : String) : String := ⟨s.data.map lowerChar⟩

/-! ### Filter compilation (`Ec2Conn.__init__`, lines 72-86)

The source hands `re.compile` one of three pattern strings: `".*"` for an
absent status filter, `"^" + value + "$"` for a single configured value, and
`"^(" + "|".join(value) + ")$"` for a list of values.  A compiled `Matcher` is
modelled as that exact pattern string (as its character list), and `reMatch`
interprets it with Python regex semantics for the fragment the metacharacters
`| ( ) * . ^ $` generate, treating any other character as a literal.  The
anchored-match theorem below is restricted, through `literalValue`, to
configured values containing no regex metacharacter at all, where this
interpretation coincides exactly with Python; the counterexamples use only
interpreted metacharacters.  Python points honoured by the model: `re.match`
is truthy iff the pattern matches some prefix of the candidate starting at
position 0; `^` asserts position 0 and `$` asserts the end of the string or
the position just before a trailing newline (no MULTILINE); `.` matches any
character except a newline; alternation has the lowest precedence, so
`^a|b$` is `(^a)|(b$)`.  A pattern that fails to parse raises `re.error` at
compile time in Python (a fatal configuration error); it is modelled as a
never-matching matcher, and no claim reaches that case. -/

/-- Abstract syntax of the regex fragment the compiled patterns live in. -/
inductive Regex where
  | emptyRe : Regex
  | char (c : Char) : Regex
  | anyChar : Regex
  | caret : Regex
  | dollar : Regex
  | seq (r1 r2 : Regex) : Regex
  | alt (r1 r2 : Regex) : Regex
  | star (r : Regex) : Regex
deriving DecidableEq

/-- Right-nested concatenation of a list of regexes. -/
def seqList : List Regex → Regex
  | [] => Regex.emptyRe
  | r :: rest => Regex.seq r (seqList rest)

/-- Right-nested alternation of a list of branches ending in `last`. -/
def altChain : List Regex → Regex → Regex
  | [], last => last
  | a :: rest, last => Regex.alt a (altChain rest last)

/-- Close the current concatenation (atoms are accumulated in reverse). -/
def finishCat (atoms : List Regex) : Regex := seqList atoms.reverse

/-- Close the current alternation (branches are accumulated in reverse). -/
def finishAlt (alts atoms : List Regex) : Regex :=
  altChain alts.reverse (finishCat atoms)

/-- One-pass parser for the fragment: `|` (lowest precedence), grouping,
postfix `*`, and the atoms `.`, `^`, `$` and literal characters.  The state is
the group stack plus the alternation branches and concatenation atoms of the
current level, both in reverse.  `none` models `re.error`. -/
def parseLoop : List Char → List (List Regex × List Regex) → List Regex →
    List Regex → Option Regex
  | [], stack, alts, atoms =>
    match stack with
    | [] => some (finishAlt alts atoms)
    | _ => none
  | c :: rest, stack, alts, atoms =>
    if c = '|' then parseLoop rest stack (finishCat atoms :: alts) []
    else if c = '(' then parseLoop rest ((alts, atoms) :: stack) [] []
    else if c = ')' then
      match stack with
      | [] => none
      | p :: pstack => parseLoop rest pstack p.1 (finishAlt alts atoms :: p.2)
    else if c = '*' then
      match atoms with
      | [] => none
      | a :: arest => parseLoop rest stack alts (Regex.star a :: arest)
    else if c = '.' then parseLoop rest stack alts (Regex.anyChar :: atoms)
    else if c = '^' then parseLoop rest stack alts (Regex.caret :: atoms)
    else if c = '$' then parseLoop rest stack alts (Regex.dollar :: atoms)
    else parseLoop rest stack alts (Regex.char c :: atoms)

/-- Parse a whole pattern string. -/
def parseRegex (pattern : List Char) : Option Regex := parseLoop pattern [] [] []

/-- Does `$` hold at position `i` of the candidate: at the end of the string,
or just before a newline that ends the string. -/
def dollarHolds (full : List Char) (i : Nat) : Bool :=
  i == full.length || (i + 1 == full.length && full[i]? == some '\n')

/-- Iterate a star body from position `i`: zero iterations always succeed, and
further iterations continue from strictly advanced positions (an iteration
matching the empty string adds no new position).  `fuel` bounds the strictly
increasing position chain. -/
def runStar (step : Nat → List Nat) : Nat → Nat → List Nat
  | 0, _ => []
  | fuel + 1, i =>
    i :: ((step i).filter (fun j => decide (i < j))).flatMap (runStar step fuel)

/-- All positions at which a match of `r` starting at position `i` of the
candidate can end.  `fuel` is threaded to bound star iteration only. -/
def runRe (full : List Char) (fuel : Nat) : Regex → Nat → List Nat
  | Regex.emptyRe, i => [i]
  | Regex.char c, i =>
    match full[i]? with
    | some c2 => if c2 = c then [i + 1] else []
    | none => []
  | Regex.anyChar, i =>
    match full[i]? with
    | some c2 => if c2 = '\n' then [] else [i + 1]
    | none => []
  | Regex.caret, i => if i = 0 then [i] else []
  | Regex.dollar, i => if dollarHolds full i then [i] else []
  | Regex.seq r1 r2, i => (runRe full fuel r1 i).flatMap (runRe full fuel r2)
  | Regex.alt r1 r2, i => runRe full fuel r1 i ++ runRe full fuel r2 i
  | Regex.star r, i => runStar (runRe full fuel r) fuel i

/-- Truthiness of `compiled.match(candidate)`: the pattern matches some prefix
of the candidate starting at position 0. -/
def pyMatch (r : Regex) (full : List Char) : Bool :=
  !(runRe full (full.length + 1) r 0).isEmpty

/-- A compiled filter: the exact pattern string handed to `re.compile`, as its
character list. -/
abbrev Matcher : Type := List Char

/-- Truthiness of `matcher.match(s)`. -/
def reMatch (m : Matcher) (s : String) : Bool :=
  match parseRegex m with
  | some r => pyMatch r s.data
  | none => false

/-- The characters Python regex treats specially anywhere in a pattern; a
configured value containing none of them denotes itself literally. -/
def isRegexSpecial (c : Char) : Bool :=
  c == '|' || c == '(' || c == ')' || c == '*' || c == '.' || c == '^' ||
  c == '$' || c == '+' || c == '?' || c == '[' || c == ']' || c == '\\' ||
  c == '\x7b' || c == '\x7d'

/-- A configured value that is a regex-literal string. -/
def literalValue (v : String) : Bool := v.data.all (fun c => !isRegexSpecial c)

/-- `"|".join(value)` as a character list. -/
def joinBar : List String → List Char
  | [] => []
  | [v] => v.data
  | v :: vs => v.data ++ '|' :: joinBar vs

/-- A configured filter value: a single string or a list of alternatives. -/
abbrev FilterVal : Type := Sum String (List String)

/-- Lines 76-79: `re.compile("^" + value + "$")` for a single string and
`re.compile("^(" + "|".join(value) + ")$")` for a list. -/
def compileValue : FilterVal → Matcher
  | Sum.inl v => '^' :: v.data ++ ['$']
  | Sum.inr vs => '^' :: '(' :: (joinBar vs ++ [')', '$'])

/-- Lines 80-85: the status matcher; an absent status filter compiles
`re.compile(".*")`. -/
def compileStatus : Option FilterVal → Matcher
  | none => ['.', '*']
  | some (Sum.inl v) => '^' :: v.data ++ ['$']
  | some (Sum.inr vs) => '^' :: '(' :: (joinBar vs ++ [')', '$'])

/-- Lines 73-79: `self._tag_filters[tag.lower()] = re.compile(...)` for every
configured tag, in iteration order. -/
def compileTagFilters (tags : List (String × FilterVal)) : List (String × Matcher) :=
  tags.foldl (fun d p => dictInsert (lowerStr p.1) (compileValue p.2) d) []

/-- The `filters` block of the configuration (`status` and `tags` keys; an
absent `tags` key behaves as an empty mapping). -/
structure FilterConf where
  status : Option FilterVal
  tags : List (String × FilterVal)
deriving DecidableEq

/-! ### Tag checking (`Ec2Conn._check_tags`, lines 151-164) -/

/-- The loop of `_check_tags`: every configured (lowercased) tag name must be a
key of the instance tag dict, and its value must match the compiled pattern. -/
def check_tags (tagFilters : List (String × Matcher))
    (instance_tags : List (String × String)) : Bool :=
  tagFilters.all (fun p =>
    match dlookup p.1 instance_tags with
    | none => false
    | some v => reMatch p.2 v)

/-! ### Label-set construction (`Ec2Conn.run`, lines 126-139) -/

/-- The fields of one EC2 instance the loop body reads: `instance.state`,
`instance.instance_type`, `instance.image_id` (either may be `None` in boto)
and the tag dict (tag values are strings). -/
structure Instance where
  state : String
  instance_type : Option String
  image_id : Option String
  tags : List (String × String)
deriving DecidableEq

/-- Lines 134-137: the built-in labels, then every instance tag assigned over
them (`tags[tag] = val`), before the `None` filter. -/
def mergedLabels (zone region : String) (i : Instance) : List (String × Option String) :=
  i.tags.foldl (fun d p => dictInsert p.1 (some p.2) d)
    [("zone", some zone), ("region", some region),
     ("machine", i.instance_type), ("ami", i.image_id)]

/-- Line 138: `dict((k, v) for k, v in tags.iteritems() if v is not None)`. -/
def buildLabels (zone region : String) (i : Instance) : List (String × String) :=
  (mergedLabels zone region i).filterMap (fun p =>
    match p.2 with
    | some v => some (p.1, v)
    | none => none)

/-- One observation pushed on the queue: `(1, labelSet)`. -/
abbrev Fact : Type := Nat × List (String × String)

/-- One uncancelled fetch cycle of `Ec2Conn.run` (lines 126-139): for each
instance in list order, skip it unless the status matches and `_check_tags`
passes, otherwise enqueue `(1, labelSet)`. -/
def pollCycle (zone region : String) (statusFilter : Matcher)
    (tagFilters : List (String × Matcher)) (instances : List Instance) : List Fact :=
  instances.foldr (fun i acc =>
    if reMatch statusFilter i.state = true then
      if check_tags tagFilters i.tags = true then
        (1, buildLabels zone region i) :: acc
      else acc
    else acc) []

/-! ### The fact queue (`Ec2Conn.get`, lines 98-104) -/

/-- `Queue.get_nowait`: `none` models the `Queue.Empty` exception. -/
def getNowait {α : Type} : List α → Option (α × List α)
  | [] => none
  | x :: r => some (x, r)

/-- The generator `Ec2Conn.get`: repeatedly `get_nowait` until `Queue.Empty`,
yielding the drained items; returns the drained items and the queue left. -/
def drainAll {α : Type} : List α → List α × List α
  | [] => ([], [])
  | x :: r => ((x :: (drainAll r).1), (drainAll r).2)

/-! ### The aggregator (`Ec2Collector.collect`, lines 224-240) -/

/-- A `prometheus_client` `GaugeMetricFamily`: its declared label names and the
samples appended by `add_metric` (label values paired with the gauge value).
The name and documentation strings are fixed per family and carry no logic. -/
structure GaugeMetricFamily where
  labels : List String
  samples : List (List String × Nat)
deriving DecidableEq

/-- `family.add_metric(values, v)`: append one sample. -/
def addMetric (fam : GaugeMetricFamily) (vals : List String) (v : Nat) : GaugeMetricFamily :=
  { fam with samples := fam.samples ++ [(vals, v)] }

/-- Ordering of label items by label name, as `sorted(..., key=lambda y: y[0])`
compares the names. -/
def labelLe (a b : String × String) : Prop := strLe a.1 b.1

/-- Strict version of `labelLe`, used to show sorted item lists are unique. -/
def labelLt (a b : String × String) : Prop := strLt a.1 b.1

instance : DecidableRel labelLe := fun a b => inferInstanceAs (Decidable (strLe a.1 b.1))

instance : IsTotal (String × String) labelLe := ⟨fun a b => le_total a.1.data b.1.data⟩

instance : IsTrans (String × String) labelLe := ⟨fun _ _ _ h1 h2 => le_trans h1 h2⟩

instance : IsAntisymm (String × String) labelLt :=
  ⟨fun _ _ h1 h2 => absurd h2 (lt_asymm h1)⟩

/-- Line 233: `frozenset(sorted(tags.items(), key=lambda y: y[0]))`.  For a
dict (distinct keys) the item list sorted by name is a canonical representative
of that frozenset: two label dicts produce equal frozensets exactly when they
produce equal sorted item lists. -/
def canonKey (tags : List (String × String)) : List (String × String) :=
  List.insertionSort labelLe tags

/-- Line 239: `[x[1] for x in sorted(frozen_tags, key=lambda y: y[0])]`, the
sample label values in sorted-name order. -/
def sampleValues (tags : List (String × String)) : List String :=
  (List.insertionSort labelLe (canonKey tags)).map (fun p => p.2)

/-- Line 237: `sorted([x[0] for x in frozen_tags])`, the label names of a newly
created family. -/
def newFamilyLabels (tags : List (String × String)) : List String :=
  List.insertionSort strLe ((canonKey tags).map (fun p => p.1))

/-- The `Ec2Collector._metrics` dict: canonical key to metric family. -/
abbrev Metrics : Type := List (List (String × String) × GaugeMetricFamily)

/-- Lines 233-240 for one drained fact `(val, tags)`: look up or lazily create
the family for the canonical key, append one sample with the fact value, and
yield that family. -/
def collectStep (metrics : Metrics) (f : Fact) : Metrics × GaugeMetricFamily :=
  let key := canonKey f.2
  let fam0 :=
    match dlookup key metrics with
    | some fam => fam
    | none => { labels := newFamilyLabels f.2, samples := [] }
  let fam1 := addMetric fam0 (sampleValues f.2) f.1
  (dictInsert key fam1 metrics, fam1)

/-- The fact loop of `collect`: process the drained facts in order, yielding the
(updated) family after each one. -/
def collectFacts (metrics : Metrics) : List Fact → Metrics × List GaugeMetricFamily
  | [] => (metrics, [])
  | f :: rest =>
    let r1 := collectStep metrics f
    let r2 := collectFacts r1.1 rest
    (r2.1, r1.2 :: r2.2)

/-- The mutable state of `Ec2Collector` that `collect` touches: the liveness
family `_alive_metric` (label `host`) and the `_metrics` dict. -/
structure CollectorState where
  alive : GaugeMetricFamily
  metrics : Metrics
deriving DecidableEq

/-- The state right after `Ec2Collector.__init__` (lines 191-192). -/
def initialCollectorState : CollectorState :=
  { alive := { labels := ["host"], samples := [] }, metrics := [] }

/-- One pass of `Ec2Collector.collect` (lines 224-240): append one sample to the
liveness family and yield it, then drain every worker queue in turn and process
each drained fact.  Returns the updated state, the liveness family as yielded,
and the family snapshots yielded per fact. -/
def collect (st : CollectorState) (host : String) (queues : List (List Fact)) :
    CollectorState × GaugeMetricFamily × List GaugeMetricFamily :=
  let alive1 := addMetric st.alive [host] 1
  let facts := (queues.map (fun q => (drainAll q).1)).flatten
  let r := collectFacts st.metrics facts
  ({ alive := alive1, metrics := r.1 }, alive1, r.2)

/-! ### Collector construction (`Ec2Collector.__init__`, lines 183-209) -/

/-- One started poller worker (`Ec2Conn`), with its compiled filters. -/
structure Worker where
  zone : String
  region : String
  aws_key : String
  aws_secret : String
  statusFilter : Matcher
  tagFilters : List (String × Matcher)
deriving DecidableEq

/-- `Ec2Conn.__init__` with a filter configuration (lines 52-86). -/
def mkWorker (zone region aws_key aws_secret : String) (fc : FilterConf) : Worker :=
  { zone := zone, region := region, aws_key := aws_key, aws_secret := aws_secret,
    statusFilter := compileStatus fc.status,
    tagFilters := compileTagFilters fc.tags }

/-- An error raised during construction: the explicit `ExporterError`, or a
Python `KeyError` from indexing a dict with a missing key. -/
inductive InitError where
  | exporterError (msg : String) : InitError
  | keyError (key : String) : InitError
deriving DecidableEq

/-- The record configured under `access.<zone>`: its scalar fields (the code
reads `["key"]` and `["pwd"]`) and its `region` list. -/
structure ZoneAccess where
  fields : List (String × String)
  region : List String
deriving DecidableEq

/-- One provider entry of the configuration mapping. -/
structure CloudConf where
  filters : Option FilterConf
  access : Option (List (String × ZoneAccess))
deriving DecidableEq

/-- Lines 202-207 for one zone: read `["key"]` then `["pwd"]` (raising
`KeyError` if absent), then create and start one worker per region. -/
def initZone (fc : FilterConf) (zone : String) (za : ZoneAccess) :
    Except InitError (List Worker) :=
  match dlookup "key" za.fields with
  | none => Except.error (InitError.keyError "key")
  | some k =>
    match dlookup "pwd" za.fields with
    | none => Except.error (InitError.keyError "pwd")
    | some s => Except.ok (za.region.map (fun r => mkWorker zone r k s fc))

/-- Line 201: the zone loop.  Workers of earlier zones are already started when
a later zone raises; the error aborts the loop. -/
def initZones (fc : FilterConf) : List (String × ZoneAccess) →
    List Worker × Option InitError
  | [] => ([], none)
  | p :: rest =>
    match initZone fc p.1 p.2 with
    | Except.error e => ([], some e)
    | Except.ok ws =>
      let r := initZones fc rest
      (ws ++ r.1, r.2)

/-- Lines 194-209 for one provider entry: read the optional `filters` block,
check `access` is present (else `ExporterError`), then either run the `aws`
zone loop or raise the unknown-cloud `ExporterError`. -/
def initCloud (cloud : String) (cc : CloudConf) : List Worker × Option InitError :=
  let fc := match cc.filters with
    | some f => f
    | none => { status := none, tags := [] }
  match cc.access with
  | none =>
    ([], some (InitError.exporterError
      ("Invalid config for " ++ cloud ++ " config: no \x27access\x27 defined")))
  | some zones =>
    if cloud = "aws" then initZones fc zones
    else
      ([], some (InitError.exporterError
        ("Unknown cloud type \x27" ++ cloud ++ "\x27 in config file")))

/-- Line 193: the provider loop of `Ec2Collector.__init__`, over the entries of
the configuration mapping in iteration order.  Returns every worker started
before construction finished or aborted, and the raised error if any. -/
def collectorInit : List (String × CloudConf) → List Worker × Option InitError
  | [] => ([], none)
  | p :: rest =>
    match initCloud p.1 p.2 with
    | (ws, some e) => (ws, some e)
    | (ws, none) =>
      let r := collectorInit rest
      (ws ++ r.1, r.2)

/-! ### Dict lemmas -/

theorem dlookup_dictInsert_self {κ α : Type} [DecidableEq κ] (k : κ) (v : α)
    (d : List (κ × α)) : dlookup k (dictInsert k v d) = some v := by
  induction d with
  | nil => simp [dictInsert, dlookup]
  | cons p r ih =>
    by_cases h : p.1 = k
    · simp [dictInsert, dlookup, h]
    · simp [dictInsert, dlookup, h, ih]

theorem dlookup_dictInsert_ne {κ α : Type} [DecidableEq κ] {k k2 : κ} (v : α)
    (d : List (κ × α)) (h : k2 ≠ k) :
    dlookup k2 (dictInsert k v d) = dlookup k2 d := by
  have hkk2 : ¬(k = k2) := fun he => h he.symm
  induction d with
  | nil => simp [dictInsert, dlookup, hkk2]
  | cons p r ih =>
    by_cases hp : p.1 = k
    · simp [dictInsert, dlookup, hp, hkk2]
    · by_cases hp2 : p.1 = k2 <;> simp [dictInsert, dlookup, hp, hp2, h, hkk2, ih]

theorem mem_dictInsert {κ α : Type} [DecidableEq κ] {k : κ} {v : α} {q : κ × α} :
    ∀ {d : List (κ × α)}, q ∈ dictInsert k v d → q = (k, v) ∨ q ∈ d := by
  intro d
  induction d with
  | nil => intro h; simpa [dictInsert] using h
  | cons p r ih =>
    intro h
    by_cases hp : p.1 = k
    · simp only [dictInsert, if_pos hp] at h
      rcases List.mem_cons.mp h with h | h
      · exact Or.inl h
      · exact Or.inr (List.mem_cons_of_mem _ h)
    · simp only [dictInsert, if_neg hp] at h
      rcases List.mem_cons.mp h with h | h
      · exact Or.inr (h ▸ List.mem_cons_self _ _)
      · rcases ih h with h2 | h2
        · exact Or.inl h2
        · exact Or.inr (List.mem_cons_of_mem _ h2)

theorem keysNodup_dictInsert {κ α : Type} [DecidableEq κ] (k : κ) (v : α) :
    ∀ {d : List (κ × α)}, keysNodup d → keysNodup (dictInsert k v d) := by
  intro d
  induction d with
  | nil => intro _; simp [dictInsert]
  | cons p r ih =>
    intro h
    rcases List.pairwise_cons.mp h with ⟨hhead, htail⟩
    by_cases hp : p.1 = k
    · rw [show dictInsert k v (p :: r) = (k, v) :: r from by
        simp [dictInsert, hp]]
      refine List.pairwise_cons.mpr ⟨?_, htail⟩
      intro q hq
      simpa using hp ▸ hhead q hq
    · rw [show dictInsert k v (p :: r) = p :: dictInsert k v r from by
        simp [dictInsert, hp]]
      refine List.pairwise_cons.mpr ⟨?_, ih htail⟩
      intro q hq
      rcases mem_dictInsert hq with h2 | h2
      · simpa [h2] using hp
      · exact hhead q h2

theorem dlookup_eq_none_of_forall {κ α : Type} [DecidableEq κ] {k : κ}
    {d : List (κ × α)} (h : ∀ p ∈ d, p.1 ≠ k) : dlookup k d = none := by
  induction d with
  | nil => rfl
  | cons p r ih =>
    simp only [dlookup, if_neg (h p (List.mem_cons_self _ _))]
    exact ih (fun q hq => h q (List.mem_cons_of_mem _ hq))

theorem forall_ne_of_dlookup_eq_none {κ α : Type} [DecidableEq κ] {k : κ} :
    ∀ {d : List (κ × α)}, dlookup k d = none → ∀ p ∈ d, p.1 ≠ k := by
  intro d
  induction d with
  | nil => intro _ p hp; cases hp
  | cons p r ih =>
    intro h q hq
    by_cases hp : p.1 = k
    · simp [dlookup, hp] at h
    · simp only [dlookup, if_neg hp] at h
      rcases List.mem_cons.mp hq with hq | hq
      · simpa [hq] using hp
      · exact ih h q hq

theorem dictInsert_eq_append {κ α : Type} [DecidableEq κ] {k : κ} (v : α)
    {d : List (κ × α)} (h : ∀ p ∈ d, p.1 ≠ k) : dictInsert k v d = d ++ [(k, v)] := by
  induction d with
  | nil => rfl
  | cons p r ih =>
    simp only [dictInsert, if_neg (h p (List.mem_cons_self _ _))]
    simp [ih (fun q hq => h q (List.mem_cons_of_mem _ hq))]

/-! ### Folded dict assignment lemmas (the `tags[tag] = val` loops) -/

theorem dlookup_foldl_ins_of_forbidden {κ α ι : Type} [DecidableEq κ]
    (g : ι → κ) (f : ι → α) {k : κ} :
    ∀ (l : List ι) (acc : List (κ × α)), (∀ p ∈ l, g p ≠ k) →
      dlookup k (l.foldl (fun d p => dictInsert (g p) (f p) d) acc) = dlookup k acc := by
  intro l
  induction l with
  | nil => intro acc _; rfl
  | cons p r ih =>
    intro acc h
    simp only [List.foldl_cons]
    rw [ih _ (fun q hq => h q (List.mem_cons_of_mem _ hq))]
    exact dlookup_dictInsert_ne _ _ (fun he => h p (List.mem_cons_self _ _) he.symm)

theorem dlookup_foldl_ins_of_mem {κ α ι : Type} [DecidableEq κ]
    (g : ι → κ) (f : ι → α) {p0 : ι} :
    ∀ (l : List ι) (acc : List (κ × α)),
      l.Pairwise (fun p q => g p ≠ g q) → p0 ∈ l →
      dlookup (g p0) (l.foldl (fun d p => dictInsert (g p) (f p) d) acc) = some (f p0) := by
  intro l
  induction l with
  | nil => intro acc _ h; cases h
  | cons p r ih =>
    intro acc hnd hmem
    rcases List.pairwise_cons.mp hnd with ⟨hhead, htail⟩
    simp only [List.foldl_cons]
    rcases List.mem_cons.mp hmem with hmem | hmem
    · subst hmem
      rw [dlookup_foldl_ins_of_forbidden g f r _
        (fun q hq he => hhead q hq he.symm)]
      exact dlookup_dictInsert_self _ _ _
    · exact ih _ htail hmem

theorem keysNodup_foldl_ins {κ α ι : Type} [DecidableEq κ]
    (g : ι → κ) (f : ι → α) :
    ∀ (l : List ι) (acc : List (κ × α)), keysNodup acc →
      keysNodup (l.foldl (fun d p => dictInsert (g p) (f p) d) acc) := by
  intro l
  induction l with
  | nil => intro acc h; exact h
  | cons p r ih =>
    intro acc h
    exact ih _ (keysNodup_dictInsert _ _ h)

theorem foldl_ins_eq_append {κ α ι : Type} [DecidableEq κ]
    (g : ι → κ) (f : ι → α) :
    ∀ (l : List ι) (acc : List (κ × α)), (l.map g).Nodup →
      (∀ p ∈ l, ∀ q ∈ acc, q.1 ≠ g p) →
      l.foldl (fun d p => dictInsert (g p) (f p) d) acc
        = acc ++ l.map (fun p => (g p, f p)) := by
  intro l
  induction l with
  | nil => intro acc _ _; simp
  | cons p r ih =>
    intro acc hnd hacc
    rcases List.pairwise_cons.mp hnd with ⟨hhead, htail⟩
    simp only [List.foldl_cons]
    rw [dictInsert_eq_append _ (fun q hq => hacc p (List.mem_cons_self _ _) q hq)]
    rw [ih _ htail ?fresh]
    · simp
    case fresh =>
      intro p2 hp2 q hq
      rcases List.mem_append.mp hq with hq | hq
      · exact hacc p2 (List.mem_cons_of_mem _ hp2) q hq
      · have hqe : q = (g p, f p) := by simpa using hq
        subst hqe
        exact fun he => hhead (g p2) (List.mem_map_of_mem g hp2) he

/-! ### Label-set lemmas -/

theorem fst_mem_of_mem_filterOutNone {d : List (String × Option String)}
    {q : String × String}
    (h : q ∈ d.filterMap (fun p =>
      match p.2 with
      | some v => some (p.1, v)
      | none => none)) : ∃ p ∈ d, q.1 = p.1 := by
  rcases List.mem_filterMap.mp h with ⟨p, hp, he⟩
  refine ⟨p, hp, ?_⟩
  rcases p with ⟨k0, v0⟩
  cases v0 with
  | none => simp at he
  | some v =>
    simp only at he
    cases he
    rfl

theorem dlookup_filterOutNone {k : String} :
    ∀ {d : List (String × Option String)}, keysNodup d →
      dlookup k (d.filterMap (fun p =>
        match p.2 with
        | some v => some (p.1, v)
        | none => none)) = (dlookup k d).join := by
  intro d
  induction d with
  | nil => intro _; rfl
  | cons p r ih =>
    intro h
    rcases List.pairwise_cons.mp h with ⟨hhead, htail⟩
    rcases p with ⟨k0, v0⟩
    by_cases hk : k0 = k
    · subst hk
      cases v0 with
      | some v => simp [dlookup, ih htail]
      | none =>
        simp only [List.filterMap_cons, dlookup, if_pos rfl]
        rw [dlookup_eq_none_of_forall]
        · rfl
        · intro q hq
          rcases fst_mem_of_mem_filterOutNone hq with ⟨p2, hp2, he⟩
          exact he ▸ (hhead p2 hp2).symm
    · cases v0 with
      | some v => simp [dlookup, List.filterMap_cons, hk, ih htail]
      | none => simp [dlookup, List.filterMap_cons, hk, ih htail]

theorem keysNodup_mergedLabels (zone region : String) (i : Instance) :
    keysNodup (mergedLabels zone region i) := by
  apply keysNodup_foldl_ins
  simp [List.pairwise_cons]

theorem dlookup_buildLabels (zone region : String) (i : Instance) (k : String) :
    dlookup k (buildLabels zone region i)
      = (dlookup k (mergedLabels zone region i)).join :=
  dlookup_filterOutNone (keysNodup_mergedLabels zone region i)

theorem dlookup_mergedLabels_tag {zone region : String} {i : Instance}
    {k v : String} (hnd : keysNodup i.tags) (hmem : (k, v) ∈ i.tags) :
    dlookup k (mergedLabels zone region i) = some (some v) :=
  dlookup_foldl_ins_of_mem (fun p => p.1) (fun p => some p.2) i.tags _ hnd hmem

theorem tag_lookup_buildLabels {zone region : String} {i : Instance}
    {k v : String} (hnd : keysNodup i.tags) (hmem : (k, v) ∈ i.tags) :
    dlookup k (buildLabels zone region i) = some v := by
  rw [dlookup_buildLabels, dlookup_mergedLabels_tag hnd hmem]
  rfl

theorem dlookup_mergedLabels_of_no_tag {zone region : String} {i : Instance}
    {k : String} (h : dlookup k i.tags = none) :
    dlookup k (mergedLabels zone region i)
      = dlookup k [("zone", some zone), ("region", some region),
          ("machine", i.instance_type), ("ami", i.image_id)] :=
  dlookup_foldl_ins_of_forbidden (fun p => p.1) (fun p => some p.2) i.tags _
    (forall_ne_of_dlookup_eq_none h)

theorem mem_pollCycle {zone region : String} {sf : Matcher}
    {tf : List (String × Matcher)} {i : Instance} :
    ∀ {l : List Instance}, i ∈ l → reMatch sf i.state = true →
      check_tags tf i.tags = true →
      (1, buildLabels zone region i) ∈ pollCycle zone region sf tf l := by
  intro l
  induction l with
  | nil => intro h _ _; cases h
  | cons a r ih =>
    intro hmem hs ht
    have hstep : pollCycle zone region sf tf (a :: r)
        = if reMatch sf a.state = true then
            if check_tags tf a.tags = true then
              (1, buildLabels zone region a) :: pollCycle zone region sf tf r
            else pollCycle zone region sf tf r
          else pollCycle zone region sf tf r := rfl
    rcases List.mem_cons.mp hmem with hmem | hmem
    · subst hmem
      rw [hstep, if_pos hs, if_pos ht]
      exact List.mem_cons_self _ _
    · rw [hstep]
      split
      · split
        · exact List.mem_cons_of_mem _ (ih hmem hs ht)
        · exact ih hmem hs ht
      · exact ih hmem hs ht

/-! ### Canonical-key lemmas -/

theorem sorted_canonKey (t : List (String × String)) :
    List.Sorted labelLe (canonKey t) :=
  List.sorted_insertionSort labelLe t

theorem perm_canonKey (t : List (String × String)) : (canonKey t).Perm t :=
  List.perm_insertionSort labelLe t

theorem keysNodup_canonKey {t : List (String × String)} (h : keysNodup t) :
    keysNodup (canonKey t) :=
  ((perm_canonKey t).pairwise_iff (fun hxy => hxy.symm)).mpr h

theorem pairwise_lt_canonKey {t : List (String × String)} (h : keysNodup t) :
    List.Pairwise labelLt (canonKey t) :=
  ((sorted_canonKey t).and (keysNodup_canonKey h)).imp
    (fun hab => lt_of_le_of_ne hab.1 (fun hd => hab.2 (String.ext hd)))

theorem canonKey_eq_of_perm {t1 t2 : List (String × String)}
    (h : keysNodup t1) (hp : t1.Perm t2) : canonKey t1 = canonKey t2 := by
  have h2 : keysNodup t2 := (hp.pairwise_iff (fun hxy => hxy.symm)).mp h
  have p12 : (canonKey t1).Perm (canonKey t2) :=
    (perm_canonKey t1).trans (hp.trans (perm_canonKey t2).symm)
  exact List.eq_of_perm_of_sorted p12 (pairwise_lt_canonKey h) (pairwise_lt_canonKey h2)

theorem sampleValues_eq_map_canonKey (t : List (String × String)) :
    sampleValues t = (canonKey t).map (fun p => p.2) := by
  unfold sampleValues
  rw [List.Sorted.insertionSort_eq (sorted_canonKey t)]

theorem newFamilyLabels_eq_map_canonKey (t : List (String × String)) :
    newFamilyLabels t = (canonKey t).map (fun p => p.1) := by
  unfold newFamilyLabels
  have hs : List.Sorted strLe ((canonKey t).map (fun p => p.1)) :=
    List.pairwise_map.mpr ((sorted_canonKey t).imp (fun h => h))
  rw [List.Sorted.insertionSort_eq hs]

theorem collectStep_congr {t1 t2 : List (String × String)}
    (h : canonKey t1 = canonKey t2) (m : Metrics) (v : Nat) :
    collectStep m (v, t1) = collectStep m (v, t2) := by
  simp only [collectStep, sampleValues, newFamilyLabels, h]

/-! ### Aggregation-pass lemmas -/

theorem dlookup_collectStep (m : Metrics) (f : Fact) {k : List (String × String)}
    {fam : GaugeMetricFamily} (h : dlookup k m = some fam) :
    ∃ fam2 ext, dlookup k (collectStep m f).1 = some fam2 ∧
      fam2.samples = fam.samples ++ ext := by
  by_cases hk : k = canonKey f.2
  · subst hk
    refine ⟨addMetric fam (sampleValues f.2) f.1, [(sampleValues f.2, f.1)], ?_, rfl⟩
    simp only [collectStep, h]
    exact dlookup_dictInsert_self _ _ _
  · refine ⟨fam, [], ?_, by simp⟩
    simp only [collectStep]
    rw [dlookup_dictInsert_ne _ _ hk]
    exact h

theorem dlookup_collectFacts (facts : List Fact) :
    ∀ (m : Metrics) {k : List (String × String)} {fam : GaugeMetricFamily},
      dlookup k m = some fam →
      ∃ fam2 ext, dlookup k (collectFacts m facts).1 = some fam2 ∧
        fam2.samples = fam.samples ++ ext := by
  induction facts with
  | nil => intro m k fam h; exact ⟨fam, [], h, by simp⟩
  | cons f rest ih =>
    intro m k fam h
    rcases dlookup_collectStep m f h with ⟨fam1, e1, h1, he1⟩
    rcases ih _ h1 with ⟨fam2, e2, h2, he2⟩
    refine ⟨fam2, e1 ++ e2, ?_, by rw [he2, he1, List.append_assoc]⟩
    simpa [collectFacts] using h2

/-! ### Queue lemmas -/

theorem drainAll_fifo {α : Type} (q : List α) : drainAll q = (q, []) := by
  induction q with
  | nil => rfl
  | cons x r ih => simp [drainAll, ih]

theorem drainAll_eq_getNowait_loop {α : Type} (q : List α) :
    drainAll q = match getNowait q with
      | none => ([], q)
      | some p => ((p.1 :: (drainAll p.2).1), (drainAll p.2).2) := by
  cases q <;> rfl

/-! ### Tag-filter lemmas -/

theorem check_tags_iff (fs : List (String × Matcher)) (t : List (String × String)) :
    check_tags fs t = true ↔
      ∀ p ∈ fs, ∃ v, dlookup p.1 t = some v ∧ reMatch p.2 v = true := by
  simp only [check_tags, List.all_eq_true]
  constructor
  · intro h p hp
    have h2 := h p hp
    cases hl : dlookup p.1 t with
    | none => rw [hl] at h2; exact absurd h2 (by simp)
    | some v =>
      rw [hl] at h2
      exact ⟨v, rfl, h2⟩
  · intro h p hp
    rcases h p hp with ⟨v, hv, hm⟩
    rw [hv]
    exact hm

theorem compileTagFilters_eq_map {tf : List (String × FilterVal)}
    (h : (tf.map (fun p => lowerStr p.1)).Nodup) :
    compileTagFilters tf = tf.map (fun p => (lowerStr p.1, compileValue p.2)) := by
  unfold compileTagFilters
  rw [foldl_ins_eq_append (fun p => lowerStr p.1) (fun p => compileValue p.2) tf [] h
    (fun p _ q hq => absurd hq (List.not_mem_nil q))]
  simp

/-! ### Construction lemmas -/

/-- A zone record that conforms to the code: `key`, `pwd` and `region`. -/
structure ZoneCred where
  zoneName : String
  key : String
  pwd : String
  regions : List String

/-- Render a `ZoneCred` as the `access` entry the code reads. -/
def ZoneCred.entry (z : ZoneCred) : String × ZoneAccess :=
  (z.zoneName, { fields := [("key", z.key), ("pwd", z.pwd)], region := z.regions })

theorem initZone_cred (fc : FilterConf) (z : ZoneCred) :
    initZone fc z.zoneName { fields := [("key", z.key), ("pwd", z.pwd)], region := z.regions }
      = Except.ok (z.regions.map (fun r => mkWorker z.zoneName r z.key z.pwd fc)) := by
  have h1 : dlookup "key" [("key", z.key), ("pwd", z.pwd)] = some z.key := by
    simp [dlookup]
  have h2 : dlookup "pwd" [("key", z.key), ("pwd", z.pwd)] = some z.pwd := by
    simp [dlookup, show ("key" : String) ≠ "pwd" by decide]
  simp [initZone, h1, h2]

theorem initZones_cred (fc : FilterConf) (zs : List ZoneCred) :
    initZones fc (zs.map ZoneCred.entry)
      = (zs.flatMap (fun z => z.regions.map (fun r => mkWorker z.zoneName r z.key z.pwd fc)),
         none) := by
  induction zs with
  | nil => rfl
  | cons z rest ih =>
    simp only [List.map_cons, initZones, ZoneCred.entry, initZone_cred fc z, ih]
    simp

/-! ### Regex-engine lemmas -/

theorem flatMap_congr {α β : Type} {f g : α → List β} :
    ∀ {l : List α}, (∀ a ∈ l, f a = g a) → l.flatMap f = l.flatMap g := by
  intro l
  induction l with
  | nil => intro _; rfl
  | cons a r ih =>
    intro h
    simp only [List.flatMap_cons]
    rw [h a (List.mem_cons_self _ _), ih (fun b hb => h b (List.mem_cons_of_mem _ hb))]

theorem runRe_seq_assoc (full : List Char) (fuel : Nat) (a b c : Regex) (i : Nat) :
    runRe full fuel (Regex.seq (Regex.seq a b) c) i
      = runRe full fuel (Regex.seq a (Regex.seq b c)) i := by
  simp [runRe, List.flatMap_assoc]

theorem runRe_seq_emptyRe (full : List Char) (fuel : Nat) (r : Regex) (i : Nat) :
    runRe full fuel (Regex.seq r Regex.emptyRe) i = runRe full fuel r i := by
  simp [runRe]

theorem runRe_seqList_append (full : List Char) (fuel : Nat) (r : Regex) :
    ∀ (l : List Regex) (i : Nat),
      runRe full fuel (seqList (l ++ [r])) i
        = runRe full fuel (Regex.seq (seqList l) (Regex.seq r Regex.emptyRe)) i := by
  intro l
  induction l with
  | nil =>
    intro i
    show runRe full fuel (Regex.seq r (seqList [])) i
      = runRe full fuel (Regex.seq (seqList []) (Regex.seq r Regex.emptyRe)) i
    simp [seqList, runRe]
  | cons a l ih =>
    intro i
    have h2 : runRe full fuel (Regex.seq (seqList (a :: l)) (Regex.seq r Regex.emptyRe)) i
        = runRe full fuel (Regex.seq a
            (Regex.seq (seqList l) (Regex.seq r Regex.emptyRe))) i :=
      runRe_seq_assoc full fuel a (seqList l) (Regex.seq r Regex.emptyRe) i
    rw [List.cons_append, h2]
    show (runRe full fuel a i).flatMap (runRe full fuel (seqList (l ++ [r])))
      = (runRe full fuel a i).flatMap
          (runRe full fuel (Regex.seq (seqList l) (Regex.seq r Regex.emptyRe)))
    exact flatMap_congr (fun j _ => ih j)

theorem runRe_seq_altChain (full : List Char) (fuel : Nat) (r : Regex) :
    ∀ (alts : List Regex) (last : Regex) (i : Nat),
      runRe full fuel (Regex.seq (altChain alts last) r) i
        = alts.flatMap (fun b => runRe full fuel (Regex.seq b r) i)
          ++ runRe full fuel (Regex.seq last r) i := by
  intro alts
  induction alts with
  | nil => intro last i; simp [altChain]
  | cons a rest ih =>
    intro last i
    show (runRe full fuel a i
        ++ runRe full fuel (altChain rest last) i).flatMap (runRe full fuel r) = _
    rw [List.flatMap_append]
    show runRe full fuel (Regex.seq a r) i
        ++ runRe full fuel (Regex.seq (altChain rest last) r) i = _
    rw [ih]
    simp [List.append_assoc]

theorem drop_eq_cons_iff {α : Type} :
    ∀ (full : List α) (i : Nat) (c : α) (t : List α),
      full.drop i = c :: t ↔ full[i]? = some c ∧ full.drop (i + 1) = t := by
  intro full
  induction full with
  | nil => intro i c t; simp
  | cons a f ih =>
    intro i c t
    cases i with
    | zero => simp
    | succ i2 => simpa using ih i2 c t

theorem dollarHolds_iff_drop {full : List Char} {i : Nat} (hi : i ≤ full.length) :
    dollarHolds full i = true ↔ (full.drop i = [] ∨ full.drop i = ['\n']) := by
  unfold dollarHolds
  simp only [Bool.or_eq_true, Bool.and_eq_true, beq_iff_eq]
  constructor
  · rintro (h | ⟨h1, h2⟩)
    · exact Or.inl (List.drop_eq_nil_iff.mpr (le_of_eq h.symm))
    · refine Or.inr ((drop_eq_cons_iff full i _ []).mpr ⟨h2, ?_⟩)
      exact List.drop_eq_nil_iff.mpr (le_of_eq h1.symm)
  · rintro (h | h)
    · exact Or.inl (le_antisymm hi (List.drop_eq_nil_iff.mp h))
    · rcases (drop_eq_cons_iff full i _ []).mp h with ⟨h1, h2⟩
      have hlen := List.drop_eq_nil_iff.mp h2
      rcases List.getElem?_eq_some.mp h1 with ⟨hlt, _⟩
      exact Or.inr ⟨by omega, h1⟩

theorem runRe_litDollar (full : List Char) (fuel : Nat) :
    ∀ (cs : List Char) (i : Nat), i ≤ full.length →
      (runRe full fuel (Regex.seq (seqList (cs.map Regex.char))
          (Regex.seq Regex.dollar Regex.emptyRe)) i ≠ []
        ↔ (full.drop i = cs ∨ full.drop i = cs ++ ['\n'])) := by
  intro cs
  induction cs with
  | nil =>
    intro i hi
    have hrun : runRe full fuel (Regex.seq (seqList (List.map Regex.char []))
        (Regex.seq Regex.dollar Regex.emptyRe)) i
        = if dollarHolds full i then [i] else [] := by
      show (runRe full fuel (seqList []) i).flatMap _ = _
      simp only [seqList, runRe, List.flatMap_cons, List.flatMap_nil, List.append_nil]
      split <;> simp
    rw [hrun]
    constructor
    · intro h
      have hd : dollarHolds full i = true := by
        by_contra hd2
        rw [Bool.not_eq_true] at hd2
        rw [hd2] at h
        simp at h
      simpa using (dollarHolds_iff_drop hi).mp hd
    · intro h
      have hd := (dollarHolds_iff_drop hi).mpr (by simpa using h)
      simp [hd]
  | cons c cs ih =>
    intro i hi
    have hassoc : runRe full fuel (Regex.seq (seqList ((c :: cs).map Regex.char))
        (Regex.seq Regex.dollar Regex.emptyRe)) i
        = runRe full fuel (Regex.seq (Regex.char c)
            (Regex.seq (seqList (cs.map Regex.char))
              (Regex.seq Regex.dollar Regex.emptyRe))) i :=
      runRe_seq_assoc full fuel (Regex.char c) (seqList (cs.map Regex.char)) _ i
    rw [hassoc]
    rcases hfi : full[i]? with _ | c2
    · have hlen : full.length ≤ i := by
        rcases Nat.lt_or_ge i full.length with hlt | hge
        · rw [List.getElem?_eq_getElem hlt] at hfi; cases hfi
        · exact hge
      have hdrop : full.drop i = [] := List.drop_eq_nil_iff.mpr hlen
      constructor
      · intro h
        exfalso
        apply h
        show (runRe full fuel (Regex.char c) i).flatMap _ = []
        simp [runRe, hfi]
      · rintro (h | h) <;> (rw [hdrop] at h; cases h)
    · by_cases hc : c2 = c
      · subst hc
        have hlt : i < full.length := by
          rcases List.getElem?_eq_some.mp hfi with ⟨hl, _⟩
          exact hl
        have hstep : runRe full fuel (Regex.seq (Regex.char c2)
            (Regex.seq (seqList (cs.map Regex.char))
              (Regex.seq Regex.dollar Regex.emptyRe))) i
            = runRe full fuel (Regex.seq (seqList (cs.map Regex.char))
                (Regex.seq Regex.dollar Regex.emptyRe)) (i + 1) := by
          show (runRe full fuel (Regex.char c2) i).flatMap _ = _
          simp [runRe, hfi]
        rw [hstep, ih (i + 1) hlt]
        constructor
        · rintro (h | h)
          · exact Or.inl ((drop_eq_cons_iff full i c2 cs).mpr ⟨hfi, h⟩)
          · exact Or.inr ((drop_eq_cons_iff full i c2 _).mpr ⟨hfi, h⟩)
        · rintro (h | h)
          · exact Or.inl ((drop_eq_cons_iff full i c2 cs).mp h).2
          · exact Or.inr ((drop_eq_cons_iff full i c2 _).mp h).2
      · constructor
        · intro h
          exfalso
          apply h
          show (runRe full fuel (Regex.char c) i).flatMap _ = []
          simp [runRe, hfi, hc]
        · rintro (h | h) <;>
            (rcases (drop_eq_cons_iff full i c _).mp h with ⟨h1, _⟩;
             rw [hfi] at h1;
             exact absurd (Option.some.inj h1) hc)

/-! ### Parser lemmas -/

theorem literalValue_forall {v : String} (h : literalValue v = true) :
    ∀ c ∈ v.data, isRegexSpecial c = false := by
  intro c hc
  simpa using (List.all_eq_true.mp h) c hc

theorem parseLoop_literal :
    ∀ (cs : List Char), (∀ c ∈ cs, isRegexSpecial c = false) →
      ∀ (rest : List Char) (stack : List (List Regex × List Regex))
        (alts atoms : List Regex),
        parseLoop (cs ++ rest) stack alts atoms
          = parseLoop rest stack alts ((cs.map Regex.char).reverse ++ atoms) := by
  intro cs
  induction cs with
  | nil => intro _ rest stack alts atoms; simp
  | cons c cs ih =>
    intro h rest stack alts atoms
    have hc := h c (List.mem_cons_self _ _)
    have h1 : ¬ c = '|' := fun he => absurd (he ▸ hc) (by decide)
    have h2 : ¬ c = '(' := fun he => absurd (he ▸ hc) (by decide)
    have h3 : ¬ c = ')' := fun he => absurd (he ▸ hc) (by decide)
    have h4 : ¬ c = '*' := fun he => absurd (he ▸ hc) (by decide)
    have h5 : ¬ c = '.' := fun he => absurd (he ▸ hc) (by decide)
    have h6 : ¬ c = '^' := fun he => absurd (he ▸ hc) (by decide)
    have h7 : ¬ c = '$' := fun he => absurd (he ▸ hc) (by decide)
    rw [List.cons_append]
    rw [show parseLoop (c :: (cs ++ rest)) stack alts atoms
        = parseLoop (cs ++ rest) stack alts (Regex.char c :: atoms) from by
      simp [parseLoop, h1, h2, h3, h4, h5, h6, h7]]
    rw [ih (fun b hb => h b (List.mem_cons_of_mem _ hb)) rest stack alts
      (Regex.char c :: atoms)]
    simp

theorem parseRegex_anchored_one {v : String} (h : literalValue v = true) :
    parseRegex ('^' :: v.data ++ ['$'])
      = some (Regex.seq Regex.caret
          (seqList (v.data.map Regex.char ++ [Regex.dollar]))) := by
  have hstep1 : parseRegex ('^' :: v.data ++ ['$'])
      = parseLoop (v.data ++ ['$']) [] [] [Regex.caret] := rfl
  rw [hstep1, parseLoop_literal v.data (literalValue_forall h) ['$'] [] [] [Regex.caret]]
  show some (finishAlt []
      (Regex.dollar :: ((v.data.map Regex.char).reverse ++ [Regex.caret]))) = _
  unfold finishAlt finishCat
  rw [show (Regex.dollar :: ((v.data.map Regex.char).reverse ++ [Regex.caret])).reverse
      = Regex.caret :: (v.data.map Regex.char ++ [Regex.dollar]) from by simp]
  rfl

theorem parseLoop_joinBar (w : String) (hw : literalValue w = true) :
    ∀ (vs : List String), (∀ u ∈ vs, literalValue u = true) →
      ∀ (rest : List Char) (stack : List (List Regex × List Regex))
        (alts0 : List Regex),
        parseLoop (joinBar (vs ++ [w]) ++ rest) stack alts0 []
          = parseLoop rest stack
              ((vs.map (fun u => seqList (u.data.map Regex.char))).reverse ++ alts0)
              ((w.data.map Regex.char).reverse) := by
  intro vs
  induction vs with
  | nil =>
    intro _ rest stack alts0
    rw [show joinBar ([] ++ [w]) = w.data from rfl]
    rw [parseLoop_literal w.data (literalValue_forall hw) rest stack alts0 []]
    simp
  | cons v vs ih =>
    intro h rest stack alts0
    have hjb : joinBar ((v :: vs) ++ [w]) = v.data ++ ('|' :: joinBar (vs ++ [w])) := by
      cases vs <;> rfl
    rw [hjb, List.append_assoc]
    rw [parseLoop_literal v.data
      (literalValue_forall (h v (List.mem_cons_self _ _))) _ stack alts0 []]
    rw [show parseLoop (('|' :: joinBar (vs ++ [w])) ++ rest) stack alts0
        ((v.data.map Regex.char).reverse ++ [])
        = parseLoop (joinBar (vs ++ [w]) ++ rest) stack
            (finishCat ((v.data.map Regex.char).reverse ++ []) :: alts0) [] from rfl]
    rw [ih (fun b hb => h b (List.mem_cons_of_mem _ hb)) rest stack _]
    have hbranch : finishCat ((v.data.map Regex.char).reverse ++ [])
        = seqList (v.data.map Regex.char) := by
      unfold finishCat
      simp
    rw [hbranch]
    simp

theorem parseRegex_anchored_alt (vs : List String) (w : String)
    (h : ∀ u ∈ vs, literalValue u = true) (hw : literalValue w = true) :
    parseRegex ('^' :: '(' :: (joinBar (vs ++ [w]) ++ [')', '$']))
      = some (Regex.seq Regex.caret (Regex.seq
          (altChain (vs.map (fun u => seqList (u.data.map Regex.char)))
            (seqList (w.data.map Regex.char)))
          (Regex.seq Regex.dollar Regex.emptyRe))) := by
  have hstep1 : parseRegex ('^' :: '(' :: (joinBar (vs ++ [w]) ++ [')', '$']))
      = parseLoop (joinBar (vs ++ [w]) ++ [')', '$']) [([], [Regex.caret])] [] [] := rfl
  rw [hstep1, parseLoop_joinBar w hw vs h [')', '$'] [([], [Regex.caret])] []]
  show some (finishAlt []
      (Regex.dollar
        :: finishAlt ((vs.map (fun u => seqList (u.data.map Regex.char))).reverse ++ [])
            ((w.data.map Regex.char).reverse)
        :: [Regex.caret])) = _
  have hg : finishAlt ((vs.map (fun u => seqList (u.data.map Regex.char))).reverse ++ [])
      ((w.data.map Regex.char).reverse)
      = altChain (vs.map (fun u => seqList (u.data.map Regex.char)))
          (seqList (w.data.map Regex.char)) := by
    unfold finishAlt finishCat
    simp
  rw [hg]
  rfl

/-! ### Anchored-matching characterization -/

theorem data_eq_iff {s t : String} : s.data = t.data ↔ s = t :=
  ⟨String.ext, fun h => h ▸ rfl⟩

theorem nonempty_not_isEmpty (l : List Nat) : (!l.isEmpty) = true ↔ l ≠ [] := by
  cases l <;> simp

theorem runRe_caret_peel (full : List Char) (fuel : Nat) (X : Regex) :
    runRe full fuel (Regex.seq Regex.caret X) 0 = runRe full fuel X 0 := by
  show (runRe full fuel Regex.caret 0).flatMap _ = _
  simp [runRe]

theorem reMatch_one_literal {v : String} (h : literalValue v = true) (s : String) :
    reMatch (compileValue (Sum.inl v)) s = true ↔ (s = v ∨ s = v ++ "\n") := by
  show (match parseRegex ('^' :: v.data ++ ['$']) with
    | some r => pyMatch r s.data
    | none => false) = true ↔ _
  rw [parseRegex_anchored_one h]
  show pyMatch _ s.data = true ↔ _
  unfold pyMatch
  rw [nonempty_not_isEmpty, runRe_caret_peel, runRe_seqList_append,
    runRe_litDollar s.data _ v.data 0 (Nat.zero_le _)]
  rw [show v.data ++ ['\n'] = (v ++ "\n").data from (String.data_append v "\n").symm]
  simp only [List.drop_zero]
  rw [show (s.data = v.data) = (s = v) from propext data_eq_iff,
    show (s.data = (v ++ "\n").data) = (s = v ++ "\n") from propext data_eq_iff]

theorem append_flatMap_ne_nil {α : Type} (A : List α) (f : α → List Nat) (B : List Nat) :
    (A.flatMap f ++ B ≠ []) ↔ ((∃ b ∈ A, f b ≠ []) ∨ B ≠ []) := by
  rw [Ne, List.append_eq_nil, not_and_or]
  constructor
  · rintro (hA | hB)
    · left
      by_contra hno
      push_neg at hno
      exact hA (List.flatMap_eq_nil_iff.mpr hno)
    · exact Or.inr hB
  · rintro (⟨b, hb, hfb⟩ | hB)
    · exact Or.inl (fun hnil => hfb (List.flatMap_eq_nil_iff.mp hnil b hb))
    · exact Or.inr hB

theorem reMatch_alt_literal {vs : List String} (hne : vs ≠ [])
    (h : ∀ v ∈ vs, literalValue v = true) (s : String) :
    reMatch (compileValue (Sum.inr vs)) s = true
      ↔ ∃ v ∈ vs, (s = v ∨ s = v ++ "\n") := by
  obtain ⟨init, w, hvw⟩ : ∃ init w, vs = init ++ [w] :=
    ⟨vs.dropLast, vs.getLast hne, (List.dropLast_append_getLast hne).symm⟩
  subst hvw
  have hinit : ∀ u ∈ init, literalValue u = true :=
    fun u hu => h u (List.mem_append_left _ hu)
  have hw : literalValue w = true :=
    h w (List.mem_append_right _ (List.mem_singleton.mpr rfl))
  show (match parseRegex ('^' :: '(' :: (joinBar (init ++ [w]) ++ [')', '$'])) with
    | some r => pyMatch r s.data
    | none => false) = true ↔ _
  rw [parseRegex_anchored_alt init w hinit hw]
  show pyMatch _ s.data = true ↔ _
  unfold pyMatch
  rw [nonempty_not_isEmpty, runRe_caret_peel, runRe_seq_altChain, append_flatMap_ne_nil]
  have hbranch : ∀ u : String, (runRe s.data (s.data.length + 1)
      (Regex.seq (seqList (u.data.map Regex.char))
        (Regex.seq Regex.dollar Regex.emptyRe)) 0 ≠ [])
      ↔ (s = u ∨ s = u ++ "\n") := by
    intro u
    rw [runRe_litDollar s.data _ u.data 0 (Nat.zero_le _)]
    simp only [List.drop_zero]
    rw [show u.data ++ ['\n'] = (u ++ "\n").data from (String.data_append u "\n").symm]
    rw [show (s.data = u.data) = (s = u) from propext data_eq_iff,
      show (s.data = (u ++ "\n").data) = (s = u ++ "\n") from propext data_eq_iff]
  constructor
  · rintro (⟨b, hb, hfb⟩ | hB)
    · rcases List.mem_map.mp hb with ⟨u, hu, rfl⟩
      exact ⟨u, List.mem_append_left _ hu, (hbranch u).mp hfb⟩
    · exact ⟨w, List.mem_append_right _ (List.mem_singleton.mpr rfl), (hbranch w).mp hB⟩
  · rintro ⟨u, hu, hcase⟩
    rcases List.mem_append.mp hu with hu | hu
    · exact Or.inl ⟨seqList (u.data.map Regex.char), List.mem_map_of_mem _ hu,
        (hbranch u).mpr hcase⟩
    · right
      have heq : u = w := List.mem_singleton.mp hu
      subst heq
      exact (hbranch u).mpr hcase

/-! ### Claim theorems -/

/-- Claim C1, checked against the code at its failing input: a collect pass
that drains two facts with the identical label set `env=prod` leaves the metric
group for that canonical label set holding two separate samples of value 1 —
not, as the claim states, one sample of value 2. -/
theorem c1_two_identical_facts_yield_two_unit_samples :
    dlookup (canonKey [("env", "prod")])
        (collectFacts [] [(1, [("env", "prod")]), (1, [("env", "prod")])]).1
      = some { labels := ["env"], samples := [(["prod"], 1), (["prod"], 1)] }
    ∧ dlookup (canonKey [("env", "prod")])
        (collectFacts [] [(1, [("env", "prod")]), (1, [("env", "prod")])]).1
      ≠ some { labels := ["env"], samples := [(["prod"], 2)] } := by
  constructor
  · decide
  · decide

/-- Claim C2, counterexample: the configured tag name `env` and the instance
tag name `Env` are equal case-insensitively (equal lowerings) and the value
matches, yet `_check_tags` returns false, because the lowercased filter name is
looked up case-sensitively in the instance tag dict. -/
theorem c2_counterexample_capitalized_tag_name :
    lowerStr "Env" = lowerStr "env"
    ∧ check_tags (compileTagFilters [("env", Sum.inl "prod")]) [("Env", "prod")] = false := by
  constructor
  · decide
  · decide

/-- Claim C2 as amended: `_check_tags` returns true iff every compiled filter
name (the configured name, lowercased at compile time) is present verbatim —
case-sensitively — among the instance tag names with a matching value; the
compiler stores the lowercased names. -/
theorem c2_check_tags_case_sensitive_on_lowered_names :
    (∀ (fs : List (String × Matcher)) (t : List (String × String)),
      check_tags fs t = true ↔
        ∀ p ∈ fs, ∃ v, dlookup p.1 t = some v ∧ reMatch p.2 v = true)
    ∧ (∀ tf : List (String × FilterVal), (tf.map (fun p => lowerStr p.1)).Nodup →
        compileTagFilters tf = tf.map (fun p => (lowerStr p.1, compileValue p.2)))
    ∧ check_tags (compileTagFilters [("env", Sum.inl "prod")]) [("env", "prod")] = true :=
  ⟨check_tags_iff, fun _ h => compileTagFilters_eq_map h, by decide⟩

theorem c2_witness :
    compileTagFilters [("Env", Sum.inl "prod")] = [("env", "^prod$".data)] :=
  (c2_check_tags_case_sensitive_on_lowered_names.2.1 [("Env", Sum.inl "prod")]
    (by decide)).trans (by decide)

/-- Claim C3, counterexample: after a first collect pass drains one `env=prod`
fact, a second pass draining one more such fact finds the first pass group
still in the index and appends to it — the group and its sample carried over,
contrary to the claim that its lifetime is one aggregation pass. -/
theorem c3_counterexample_group_persists :
    dlookup (canonKey [("env", "prod")])
        (collectFacts (collectFacts [] [(1, [("env", "prod")])]).1
          [(1, [("env", "prod")])]).1
      = some { labels := ["env"], samples := [(["prod"], 1), (["prod"], 1)] } := by
  decide

/-- Claim C3 as amended: the metric-group index persists across collect passes
and samples only accumulate; a pass that drains no facts yields no
instance-count families (the yield loop is driven by drained facts) and leaves
the index untouched. -/
theorem c3_groups_persist_across_passes :
    (∀ (st : CollectorState) (host : String),
      (collect st host []).2.2 = [] ∧ (collect st host []).1.metrics = st.metrics)
    ∧ (∀ (m : Metrics) (facts : List Fact) (k : List (String × String))
        (fam : GaugeMetricFamily), dlookup k m = some fam →
        ∃ fam2 ext, dlookup k (collectFacts m facts).1 = some fam2 ∧
          fam2.samples = fam.samples ++ ext) :=
  ⟨fun _ _ => ⟨rfl, rfl⟩, fun _ facts _ _ h => dlookup_collectFacts facts _ h⟩

theorem c3_witness :
    ∃ fam2 ext,
      dlookup [("a", "1")]
          (collectFacts [([("a", "1")], { labels := ["a"], samples := [(["1"], 1)] })]
            [(1, [("b", "2")])]).1
        = some fam2
      ∧ fam2.samples
        = ({ labels := ["a"], samples := [(["1"], 1)] } : GaugeMetricFamily).samples ++ ext :=
  c3_groups_persist_across_passes.2 _ [(1, [("b", "2")])] _ _ (by decide)

/-- Claim C4: an instance passing both filters has its fact enqueued, and its
label set contains `zone` and `region`, contains `machine`/`ami` exactly when
the instance type / image id is non-null (with that value), contains every
instance tag, and is the null-filtered merged dict, so every null-valued label
is dropped before the fact is enqueued.  The built-in label statements assume
the instance carries no tag of the same name (the override case is claim
C10). -/
theorem c4_label_set_of_passing_instance
    (zone region : String) (sf : Matcher) (tf : List (String × Matcher))
    (i : Instance) (l : List Instance)
    (hmem : i ∈ l)
    (hs : reMatch sf i.state = true)
    (ht : check_tags tf i.tags = true)
    (hnd : keysNodup i.tags)
    (hz : dlookup "zone" i.tags = none)
    (hr : dlookup "region" i.tags = none)
    (hm : dlookup "machine" i.tags = none)
    (ha : dlookup "ami" i.tags = none) :
    (1, buildLabels zone region i) ∈ pollCycle zone region sf tf l
    ∧ dlookup "zone" (buildLabels zone region i) = some zone
    ∧ dlookup "region" (buildLabels zone region i) = some region
    ∧ dlookup "machine" (buildLabels zone region i) = i.instance_type
    ∧ dlookup "ami" (buildLabels zone region i) = i.image_id
    ∧ (∀ p ∈ i.tags, dlookup p.1 (buildLabels zone region i) = some p.2)
    ∧ (∀ k, dlookup k (buildLabels zone region i)
        = (dlookup k (mergedLabels zone region i)).join) := by
  refine ⟨mem_pollCycle hmem hs ht, ?_, ?_, ?_, ?_,
    fun p hp => tag_lookup_buildLabels hnd hp,
    fun k => dlookup_buildLabels zone region i k⟩
  · rw [dlookup_buildLabels, dlookup_mergedLabels_of_no_tag hz]
    rfl
  · rw [dlookup_buildLabels, dlookup_mergedLabels_of_no_tag hr]
    rfl
  · rw [dlookup_buildLabels, dlookup_mergedLabels_of_no_tag hm]
    rfl
  · rw [dlookup_buildLabels, dlookup_mergedLabels_of_no_tag ha]
    rfl

theorem c4_witness :
    (1, buildLabels "eu" "eu-west-1"
        { state := "running", instance_type := some "t2.micro", image_id := none,
          tags := [("env", "prod")] })
      ∈ pollCycle "eu" "eu-west-1" (compileStatus (some (Sum.inl "running")))
          (compileTagFilters [("env", Sum.inl "prod")])
          [{ state := "running", instance_type := some "t2.micro", image_id := none,
             tags := [("env", "prod")] }]
    ∧ dlookup "zone" (buildLabels "eu" "eu-west-1"
        { state := "running", instance_type := some "t2.micro", image_id := none,
          tags := [("env", "prod")] }) = some "eu"
    ∧ dlookup "ami" (buildLabels "eu" "eu-west-1"
        { state := "running", instance_type := some "t2.micro", image_id := none,
          tags := [("env", "prod")] }) = none := by
  have h := c4_label_set_of_passing_instance "eu" "eu-west-1"
    (compileStatus (some (Sum.inl "running"))) (compileTagFilters [("env", Sum.inl "prod")])
    { state := "running", instance_type := some "t2.micro", image_id := none,
      tags := [("env", "prod")] }
    [{ state := "running", instance_type := some "t2.micro", image_id := none,
       tags := [("env", "prod")] }]
    (List.mem_cons_self _ _) (by decide) (by decide) (by decide)
    (by decide) (by decide) (by decide) (by decide)
  exact ⟨h.1, h.2.1, h.2.2.2.2.1⟩

/-- Claim C5, counterexample: a configuration whose iteration order presents a
valid `aws` entry before an entry with the unknown provider name `gce` raises
the fatal error only after the `aws` workers were already created and started:
the error is raised, but not before every worker start. -/
theorem c5_counterexample_worker_started_before_error :
    (collectorInit
        [("aws",
          { filters := none,
            access := some [("z", { fields := [("key", "k"), ("pwd", "p")],
                                    region := ["r1"] })] }),
         ("gce", { filters := none, access := some [] })]).1 ≠ []
    ∧ ((collectorInit
        [("aws",
          { filters := none,
            access := some [("z", { fields := [("key", "k"), ("pwd", "p")],
                                    region := ["r1"] })] }),
         ("gce", { filters := none, access := some [] })]).2).isSome = true := by
  constructor
  · decide
  · decide

/-- Claim C5 as amended: if any provider entry has an unrecognized name or no
`access` block, construction does raise a fatal configuration error — but only
when that entry is reached, so workers of provider entries processed earlier in
iteration order are already started. -/
theorem c5_error_raised_for_bad_entry (conf : List (String × CloudConf))
    (h : ∃ p ∈ conf, p.1 ≠ "aws" ∨ p.2.access = none) :
    ((collectorInit conf).2).isSome = true := by
  induction conf with
  | nil =>
    rcases h with ⟨p, hp, _⟩
    cases hp
  | cons p rest ih =>
    rcases hic : initCloud p.1 p.2 with ⟨ws, oe⟩
    cases oe with
    | some e => simp [collectorInit, hic]
    | none =>
      have hres : collectorInit (p :: rest)
          = (ws ++ (collectorInit rest).1, (collectorInit rest).2) := by
        simp [collectorInit, hic]
      rw [hres]
      rcases h with ⟨q, hq, hbad⟩
      rcases List.mem_cons.mp hq with hq | hq
      · exfalso
        subst hq
        rcases hacc : q.2.access with _ | zones
        · simp [initCloud, hacc] at hic
        · rcases hbad with hname | hnone
          · simp [initCloud, hacc, hname] at hic
          · rw [hacc] at hnone
            cases hnone
      · exact ih ⟨q, hq, hbad⟩

theorem c5_witness :
    ((collectorInit [("gce", { filters := none, access := none })]).2).isSome = true :=
  c5_error_raised_for_bad_entry _
    ⟨("gce", { filters := none, access := none }), List.mem_cons_self _ _,
     Or.inl (by decide)⟩

/-- Claim C6, counterexample: a zone record carrying exactly the fields the
specification names — `key`, `secret`, `region` — makes construction fail with
a `KeyError` on `pwd` and start no worker, because the code reads the secret
from the `pwd` field, not from `secret`. -/
theorem c6_counterexample_secret_field_raises_keyerror :
    collectorInit
        [("aws",
          { filters := none,
            access := some [("z", { fields := [("key", "k"), ("secret", "s")],
                                    region := ["r1"] })] })]
      = ([], some (InitError.keyError "pwd")) := by
  decide

/-- Claim C6 as amended: for zone records carrying `key`, `pwd` and `region`,
construction reads the credentials from the `key` and `pwd` fields and starts
one worker per (zone, region) pair with those credentials. -/
theorem c6_reads_key_and_pwd_fields (zs : List ZoneCred) (fc : FilterConf) :
    collectorInit [("aws", { filters := some fc, access := some (zs.map ZoneCred.entry) })]
      = (zs.flatMap (fun z =>
          z.regions.map (fun r => mkWorker z.zoneName r z.key z.pwd fc)), none) := by
  have hz := initZones_cred fc zs
  simp [collectorInit, initCloud, hz]

/-- Claim C7, counterexample: compiled matchers can accept candidates that are
not equal to the configured value.  The value `run` accepts `run\n` (Python `$`
matches just before a trailing newline), so a matcher accepts a proper
superstring of its value; and a value containing a metacharacter is
interpreted as a regex, not matched verbatim: `a|b` compiles to `^a|b$`, whose
left branch is unanchored on the right, accepting `a123`, and `.` compiles to
`^.$`, accepting `x`. -/
theorem c7_counterexample_not_exact_match :
    reMatch (compileValue (Sum.inl "run")) ("run" ++ "\n") = true
    ∧ ("run" ++ "\n") ≠ "run"
    ∧ reMatch (compileValue (Sum.inl "a|b")) "a123" = true
    ∧ ("a123" : String) ≠ "a|b"
    ∧ reMatch (compileValue (Sum.inl ".")) "x" = true
    ∧ ("x" : String) ≠ "." := by
  refine ⟨by decide, by decide, by decide, by decide, by decide, by decide⟩

/-- Claim C7 as amended: for configured values that are regex-literal strings
(no regex metacharacter), the compiled matcher is anchored up to the Python
trailing-newline rule for `$`: it accepts a candidate iff the candidate equals
the value (or one alternative of a non-empty list) exactly, or equals it
followed by a single trailing newline — never any other substring or
superstring match; in particular `run` does not match `running`.  Values
containing metacharacters are interpreted as regexes, where anchoring can fail
(see the counterexample). -/
theorem c7_matchers_anchored_on_literal_values :
    (∀ (v : String) (s : String), literalValue v = true →
      (reMatch (compileValue (Sum.inl v)) s = true ↔ (s = v ∨ s = v ++ "\n")))
    ∧ (∀ (vs : List String) (s : String), vs ≠ [] →
        (∀ v ∈ vs, literalValue v = true) →
        (reMatch (compileValue (Sum.inr vs)) s = true
          ↔ ∃ v ∈ vs, (s = v ∨ s = v ++ "\n")))
    ∧ (∀ (fv : FilterVal) (s : String),
        reMatch (compileStatus (some fv)) s = reMatch (compileValue fv) s)
    ∧ reMatch (compileValue (Sum.inl "run")) "running" = false :=
  ⟨fun _ s hlit => reMatch_one_literal hlit s,
   fun _ s hne hlit => reMatch_alt_literal hne hlit s,
   fun fv _ => by cases fv <;> rfl,
   by decide⟩

theorem c7_witness :
    reMatch (compileValue (Sum.inl "run")) "run" = true
    ∧ reMatch (compileValue (Sum.inr ["a", "b"])) "b" = true :=
  ⟨(c7_matchers_anchored_on_literal_values.1 "run" "run" (by decide)).mpr (Or.inl rfl),
   (c7_matchers_anchored_on_literal_values.2.1 ["a", "b"] "b" (by decide)
      (by decide)).mpr ⟨"b", by decide, Or.inl rfl⟩⟩

/-- Claim C8: draining the fact queue returns every queued item in FIFO order
and leaves the queue empty; on an empty queue it returns the empty sequence
(the `Queue.Empty` exception ends the generator and is never propagated), and
it follows exactly the non-blocking `get_nowait` loop of the source. -/
theorem c8_drain_all_fifo_nonblocking (α : Type) (q : List α) :
    drainAll q = (q, [])
    ∧ drainAll q = (match getNowait q with
        | none => ([], q)
        | some p => ((p.1 :: (drainAll p.2).1), (drainAll p.2).2)) :=
  ⟨drainAll_fifo q, drainAll_eq_getNowait_loop q⟩

/-- Claim C9: two label dicts equal as mappings (permutations of the same
name-value items, names distinct) receive the same canonical grouping key, so
the aggregation step treats them identically; and the sample label values and
the family label names are listed in the order of the sorted label names. -/
theorem c9_grouping_key_order_independent
    (t1 t2 : List (String × String)) (hnd : keysNodup t1) (hp : t1.Perm t2) :
    canonKey t1 = canonKey t2
    ∧ (∀ (m : Metrics) (v : Nat), collectStep m (v, t1) = collectStep m (v, t2))
    ∧ sampleValues t1 = (canonKey t1).map (fun p => p.2)
    ∧ newFamilyLabels t1 = (canonKey t1).map (fun p => p.1) := by
  have hk := canonKey_eq_of_perm hnd hp
  exact ⟨hk, fun m v => collectStep_congr hk m v,
    sampleValues_eq_map_canonKey t1, newFamilyLabels_eq_map_canonKey t1⟩

theorem c9_witness :
    canonKey [("b", "2"), ("a", "1")] = canonKey [("a", "1"), ("b", "2")] :=
  (c9_grouping_key_order_independent _ _ (by decide) (List.Perm.swap _ _ _)).1

/-- Claim C10: an instance tag named exactly `zone`, `region`, `machine` or
`ami` overrides the corresponding built-in label — the emitted label set maps
that name to the tag value, not to the worker zone/region or the instance type
or image id. -/
theorem c10_instance_tag_overrides_builtin
    (zone region : String) (i : Instance) (name v : String)
    (_hname : name = "zone" ∨ name = "region" ∨ name = "machine" ∨ name = "ami")
    (hnd : keysNodup i.tags) (hmem : (name, v) ∈ i.tags) :
    dlookup name (buildLabels zone region i) = some v :=
  tag_lookup_buildLabels hnd hmem

theorem c10_witness :
    dlookup "machine" (buildLabels "eu" "eu-west-1"
      { state := "running", instance_type := some "t2.micro", image_id := some "ami-1",
        tags := [("machine", "custom")] }) = some "custom" :=
  c10_instance_tag_overrides_builtin "eu" "eu-west-1"
    { state := "running", instance_type := some "t2.micro", image_id := some "ami-1",
      tags := [("machine", "custom")] }
    "machine" "custom" (Or.inr (Or.inr (Or.inl rfl))) (by decide) (by decide)

end Ec2Exporter